import Mathlib

/-!
Shallow embedding of the rename tool in `src/main.rs` (crate `evaki`).

Paths are Lean strings; the lexicographic codepoint order on `String`
coincides with the byte-wise UTF-8 order Rust uses on `str`, so `BTreeSet<String>` /
`BTreeMap<String, _>` are embedded as strictly sorted lists keyed by that
order.  Filesystem renames are an oracle `rn : String → String → Except ε Unit`
(the result of `std::fs::rename`), and the observable behaviour of
`main_impl` after the edit round-trip is the `Outcome` value: which diagnostic
class it returns, which `before -> after` lines it reports, and which rename
calls it issues, in order.
-/

namespace Evaki

/-- Lexicographic strict comparison of character lists, the order in which
`BTreeSet<String>` and `BTreeMap<String, _>` keep their keys (byte-wise UTF-8
order on Rust `String`s).  Written as a structural `Bool` function so that it
evaluates on concrete inputs; `charsLtB_iff` identifies it with `List.Lex`. -/
def charsLtB : List Char → List Char → Bool
  | _, [] => false
  | [], _ :: _ => true
  | a :: as, b :: bs => if a < b then true else if a = b then charsLtB as bs else false

/-- Strict byte-wise order on path strings. -/
def strLtB (a b : String) : Bool := charsLtB a.data b.data

/-- Collector step: insertion of one path into the ordered deduplicated list,
the embedding of `BTreeSet<String>::insert`. -/
def insortNoDup (x : String) : List String → List String
  | [] => [x]
  | y :: ys =>
    if strLtB x y then x :: y :: ys
    else if x = y then y :: ys
    else y :: insortNoDup x ys

/-- Collector: `let before: BTreeSet<_> = args.files.iter().cloned().collect()`
followed by `into_iter().collect::<Vec<_>>()` — order and deduplicate. -/
def collect (files : List String) : List String :=
  files.foldl (fun acc f => insortNoDup f acc) []

/-- `str::rsplit_once(sep)`: split at the last occurrence of `sep`, returning
(part before, part after), or `none` when `sep` does not occur. -/
def rsplitOnce (sep : Char) : List Char → Option (List Char × List Char)
  | [] => none
  | c :: rest =>
    match rsplitOnce sep rest with
    | some (stem, tail) => some (c :: stem, tail)
    | none => if c = sep then some ([], rest) else none

/-- `path.strip_suffix('/').unwrap_or(path)`: drop exactly one trailing
separator when present. -/
def stripOneTrailingSlash (cs : List Char) : List Char :=
  if cs.getLast? = some '/' then cs.dropLast else cs

/-- `fn get_ancestor(path: &str) -> Option<&str>` from `src/main.rs`. -/
def get_ancestor (path : String) : Option String :=
  (rsplitOnce '/' (stripOneTrailingSlash path.data)).map fun p => String.mk p.1

/-- `reverse_map.entry(after).or_default().push(before)` on the embedded
`BTreeMap<&str, Vec<&str>>`: the map is a list of buckets strictly sorted by
key. -/
def mapInsert (k v : String) : List (String × List String) → List (String × List String)
  | [] => [(k, [v])]
  | (q, vs) :: rest =>
    if strLtB k q then (k, [v]) :: (q, vs) :: rest
    else if k = q then (q, vs ++ [v]) :: rest
    else (q, vs) :: mapInsert k v rest

/-- Bucket lookup in the embedded `BTreeMap`; absent keys give the empty
bucket (`or_default`). -/
def mapLookup (k : String) : List (String × List String) → List String
  | [] => []
  | (q, vs) :: rest => if k = q then vs else mapLookup k rest

/-- `renamed_ancestors.insert((before_stem, after_stem))` on the embedded
`BTreeSet<(&str, &str)>`: sorted-unique insertion under the lexicographic
pair order Rust uses for tuples. -/
def ancInsert (p : String × String) : List (String × String) → List (String × String)
  | [] => [p]
  | q :: rest =>
    if strLtB p.1 q.1 || (p.1 = q.1 && strLtB p.2 q.2) then p :: q :: rest
    else if p = q then q :: rest
    else q :: ancInsert p rest

/-- State accumulated by the validation loop of `main_impl`:
the `failure` flag, `reverse_map` and `renamed_ancestors`. -/
structure Validation where
  failure : Bool
  reverseMap : List (String × List String)
  renamedAncestors : List (String × String)
deriving DecidableEq, Repr

/-- `Option::zip`: `some` exactly when both sides are. -/
def optZip : Option α → Option β → Option (α × β)
  | some x, some y => some (x, y)
  | _, _ => none

/-- One iteration of
`for (before, after) in Iterator::zip(before.iter(), after.iter())`. -/
def validateStep (acc : Validation) (p : String × String) : Validation :=
  let m := mapInsert p.2 p.1 acc.reverseMap
  let fail1 := acc.failure || decide (1 < (mapLookup p.2 m).length)
  match optZip (get_ancestor p.1) (get_ancestor p.2) with
  | some (bStem, aStem) =>
    if bStem ≠ aStem then ⟨true, m, ancInsert (bStem, aStem) acc.renamedAncestors⟩
    else ⟨fail1, m, acc.renamedAncestors⟩
  | none => ⟨fail1, m, acc.renamedAncestors⟩

/-- The whole validation pass over the positional pairing. -/
def validate (pairs : List (String × String)) : Validation :=
  pairs.foldl validateStep ⟨false, [], []⟩

/-- Observable outcome of `main_impl` after the edit round-trip:
`countMismatch` is the early length failure, `validationFailed` carries the
reported duplicate-target buckets and inline ancestor renames,
`ioError` is a failed `std::fs::rename` propagated by `?`, and `success` is
`ExitCode::SUCCESS`.  `reported` / `renamed` record the emitted
`before -> after` lines and the rename calls issued, in order. -/
inductive Outcome (ε : Type) where
  | countMismatch (nBefore nAfter : Nat)
  | validationFailed (dups : List (String × List String)) (ancs : List (String × String))
  | ioError (e : ε) (reported renamed : List (String × String))
  | success (reported renamed : List (String × String))
deriving DecidableEq, Repr

variable {ε : Type}

/-- The executor loop:
`for (before, after) in Iterator::zip(before.iter().rev(), after.iter().rev())`
with the identity skip, the report line, the dry-run guard and `?` on
`std::fs::rename`. -/
def exec (rn : String → String → Except ε Unit) (dryRun : Bool) :
    List (String × String) → List (String × String) → List (String × String) → Outcome ε
  | [], rep, ren => .success rep ren
  | (b, a) :: rest, rep, ren =>
    if b = a then exec rn dryRun rest rep ren
    else if dryRun then exec rn dryRun rest (rep ++ [(b, a)]) ren
    else
      match rn b a with
      | .ok _ => exec rn dryRun rest (rep ++ [(b, a)]) (ren ++ [(b, a)])
      | .error e => .ioError e (rep ++ [(b, a)]) ren

/-- The pair sequence the executor visits: both lists reversed, zipped. -/
def execOrder (before after : List String) : List (String × String) :=
  before.reverse.zip after.reverse

/-- `main_impl` from the point where the edited listing has been parsed:
length check, validation pass, duplicate/ancestor reporting and the executor.
`before` is the Collector output, `after` the parsed edited listing. -/
def main_after_edit (rn : String → String → Except ε Unit) (dryRun : Bool)
    (before after : List String) : Outcome ε :=
  if before.length ≠ after.length then .countMismatch before.length after.length
  else
    let v := validate (before.zip after)
    if v.failure then
      .validationFailed (v.reverseMap.filter fun kv => 1 < kv.2.length) v.renamedAncestors
    else exec rn dryRun (execOrder before after) [] []

/-- The rename calls an outcome issued. -/
def renamedOf : Outcome ε → List (String × String)
  | .countMismatch _ _ => []
  | .validationFailed _ _ => []
  | .ioError _ _ ren => ren
  | .success _ ren => ren

/-- The `before -> after` lines an outcome reported. -/
def reportedOf : Outcome ε → List (String × String)
  | .countMismatch _ _ => []
  | .validationFailed _ _ => []
  | .ioError _ rep _ => rep
  | .success rep _ => rep

/-- Forget the renames of a successful outcome, keeping everything else. -/
def stripRenames : Outcome ε → Outcome ε
  | .success rep _ => .success rep []
  | o => o

/-- The rename oracle on which every call succeeds. -/
def rnOk : String → String → Except ε Unit := fun _ _ => .ok ()

/-- The positional bucket of an after value: every before paired with it,
in pairing order. -/
def bucketOf (pairs : List (String × String)) (a : String) : List String :=
  pairs.filterMap fun p => if p.2 = a then some p.1 else none

/-- The non-identity pairs, in order: exactly those the executor acts on. -/
def nonId (pairs : List (String × String)) : List (String × String) :=
  pairs.filter fun p => decide (p.1 ≠ p.2)

/-! ### The Bool comparison agrees with the lexicographic order -/

theorem charsLtB_iff (as bs : List Char) : charsLtB as bs = true ↔ List.Lex (· < ·) as bs := by
  induction as generalizing bs with
  | nil =>
    cases bs with
    | nil => exact iff_of_false (by simp [charsLtB]) (fun h => by cases h)
    | cons b bs => exact iff_of_true rfl List.Lex.nil
  | cons a as ih =>
    cases bs with
    | nil => exact iff_of_false (by simp [charsLtB]) (fun h => by cases h)
    | cons b bs =>
      simp only [charsLtB]
      rcases lt_trichotomy a b with hlt | heq | hgt
      · simp only [if_pos hlt]
        exact ⟨fun _ => List.Lex.rel hlt, fun _ => trivial⟩
      · subst heq
        rw [if_neg (lt_irrefl a), if_pos rfl, ih]
        constructor
        · exact List.Lex.cons
        · intro h
          cases h with
          | cons h => exact h
          | rel h => exact absurd h (lt_irrefl a)
      · rw [if_neg (asymm hgt), if_neg (ne_of_gt hgt)]
        constructor
        · intro h; cases h
        · intro h
          cases h with
          | cons h => exact absurd rfl (ne_of_gt hgt)
          | rel h => exact absurd h (asymm hgt)

theorem strLtB_iff {a b : String} : strLtB a b = true ↔ a < b := by
  rw [String.lt_iff_toList_lt]
  exact charsLtB_iff a.data b.data

theorem lt_of_strLtB_false {a b : String} (h : ¬ strLtB a b = true) (hne : a ≠ b) : b < a := by
  rcases lt_trichotomy a b with hlt | heq | hgt
  · exact absurd (strLtB_iff.mpr hlt) h
  · exact absurd heq hne
  · exact hgt

/-! ### Collector: sortedness, dedup, membership (C1) -/

theorem mem_insortNoDup {x y : String} {l : List String} :
    y ∈ insortNoDup x l ↔ y = x ∨ y ∈ l := by
  induction l with
  | nil => simp [insortNoDup]
  | cons z zs ih =>
    simp only [insortNoDup]
    by_cases h1 : strLtB x z = true
    · simp only [if_pos h1, List.mem_cons]
    · by_cases h2 : x = z
      · subst h2
        rw [if_neg h1, if_pos rfl]
        simp only [List.mem_cons]
        tauto
      · rw [if_neg h1, if_neg h2]
        simp only [List.mem_cons, ih]
        tauto

theorem sorted_insortNoDup {x : String} {l : List String} (h : l.Sorted (· < ·)) :
    (insortNoDup x l).Sorted (· < ·) := by
  induction l with
  | nil => simp [insortNoDup]
  | cons z zs ih =>
    rcases List.sorted_cons.mp h with ⟨hzall, hzs⟩
    simp only [insortNoDup]
    by_cases h1 : strLtB x z = true
    · rw [if_pos h1]
      refine List.sorted_cons.mpr ⟨?_, h⟩
      intro b hb
      rcases List.mem_cons.mp hb with rfl | hb
      · exact strLtB_iff.mp h1
      · exact lt_trans (strLtB_iff.mp h1) (hzall b hb)
    · by_cases h2 : x = z
      · rw [if_neg h1, if_pos h2]; exact h
      · rw [if_neg h1, if_neg h2]
        refine List.sorted_cons.mpr ⟨?_, ih hzs⟩
        intro b hb
        rcases mem_insortNoDup.mp hb with rfl | hb
        · exact lt_of_strLtB_false h1 h2
        · exact hzall b hb

theorem sorted_foldl_insort (files : List String) (acc : List String)
    (h : acc.Sorted (· < ·)) :
    (files.foldl (fun acc f => insortNoDup f acc) acc).Sorted (· < ·) := by
  induction files generalizing acc with
  | nil => exact h
  | cons f fs ih => exact ih _ (sorted_insortNoDup h)

theorem mem_foldl_insort (files : List String) (acc : List String) (x : String) :
    x ∈ files.foldl (fun acc f => insortNoDup f acc) acc ↔ x ∈ acc ∨ x ∈ files := by
  induction files generalizing acc with
  | nil => simp
  | cons f fs ih =>
    simp only [List.foldl_cons, ih, mem_insortNoDup, List.mem_cons]
    tauto

theorem collect_sorted (files : List String) : (collect files).Sorted (· < ·) :=
  sorted_foldl_insort files [] (List.sorted_nil)

theorem mem_collect {files : List String} {x : String} : x ∈ collect files ↔ x ∈ files := by
  rw [collect, mem_foldl_insort]
  simp

/-- C1: for every input sequence of path strings (with repeats, in any order),
the Collector output is exactly the set of distinct values of that sequence,
in strictly ascending byte-wise order, with no duplicates. -/
theorem C1_collector_sorted_dedup (files : List String) :
    (collect files).Sorted (· < ·) ∧ (collect files).Nodup ∧
      ∀ x, x ∈ collect files ↔ x ∈ files :=
  ⟨collect_sorted files, (collect_sorted files).nodup, fun _ => mem_collect⟩

/-! ### The ancestor computation (C4, C10) -/

theorem rsplitOnce_eq_none_iff {sep : Char} {cs : List Char} :
    rsplitOnce sep cs = none ↔ sep ∉ cs := by
  induction cs with
  | nil => simp [rsplitOnce]
  | cons c rest ih =>
    simp only [rsplitOnce]
    cases h : rsplitOnce sep rest with
    | some p =>
      have hmem : sep ∈ rest := by
        by_contra hn
        rw [← ih] at hn
        simp [h] at hn
      simp [List.mem_cons, hmem]
    | none =>
      by_cases hc : c = sep
      · subst hc
        simp [List.mem_cons]
      · have : ¬ sep = c := fun hs => hc hs.symm
        simp [hc, List.mem_cons, this, ih.mp h]

theorem rsplitOnce_eq_some {sep : Char} {v : List Char} (u : List Char) (hv : sep ∉ v) :
    rsplitOnce sep (u ++ sep :: v) = some (u, v) := by
  induction u with
  | nil =>
    simp only [List.nil_append, rsplitOnce]
    rw [rsplitOnce_eq_none_iff.mpr hv]
    simp
  | cons c cu ih =>
    simp only [List.cons_append, rsplitOnce]
    rw [List.append_eq, ih]

theorem get_ancestor_eq_none_iff {p : String} :
    get_ancestor p = none ↔ '/' ∉ stripOneTrailingSlash p.data := by
  rw [get_ancestor, Option.map_eq_none', rsplitOnce_eq_none_iff]

theorem get_ancestor_eq_some {p : String} {u v : List Char}
    (h : stripOneTrailingSlash p.data = u ++ '/' :: v) (hv : '/' ∉ v) :
    get_ancestor p = some (String.mk u) := by
  rw [get_ancestor, h, rsplitOnce_eq_some u hv, Option.map_some']

/-! ### The embedded BTreeMap -/

/-- Well-formedness of the embedded map: keys strictly sorted, buckets
nonempty.  Both hold of every map the validation loop builds. -/
def WFmap (m : List (String × List String)) : Prop :=
  (m.map Prod.fst).Sorted (· < ·) ∧ ∀ p ∈ m, p.2 ≠ []

theorem WFmap_nil : WFmap [] := ⟨List.sorted_nil, by simp⟩

theorem WFmap_of_cons {q : String} {vs : List String} {rest : List (String × List String)}
    (h : WFmap ((q, vs) :: rest)) : WFmap rest :=
  ⟨(List.sorted_cons.mp h.1).2, fun p hp => h.2 p (List.mem_cons_of_mem _ hp)⟩

theorem mapLookup_eq_nil {a : String} {m : List (String × List String)}
    (h : a ∉ m.map Prod.fst) : mapLookup a m = [] := by
  induction m with
  | nil => rfl
  | cons q rest ih =>
    simp only [List.map_cons, List.mem_cons] at h
    push_neg at h
    simp only [mapLookup, if_neg h.1]
    exact ih h.2

theorem mem_keys_mapInsert {a k v : String} {m : List (String × List String)} :
    a ∈ (mapInsert k v m).map Prod.fst ↔ a = k ∨ a ∈ m.map Prod.fst := by
  induction m with
  | nil => simp [mapInsert]
  | cons q rest ih =>
    match q with
    | (q, vs) =>
      simp only [mapInsert]
      by_cases h1 : strLtB k q = true
      · rw [if_pos h1]
        simp only [List.map_cons, List.mem_cons]
      · by_cases h2 : k = q
        · subst h2
          rw [if_neg h1, if_pos rfl]
          simp only [List.map_cons, List.mem_cons]
          tauto
        · rw [if_neg h1, if_neg h2]
          simp only [List.map_cons, List.mem_cons, ih]
          tauto

theorem mapInsert_wf {k v : String} {m : List (String × List String)} (h : WFmap m) :
    WFmap (mapInsert k v m) := by
  induction m with
  | nil =>
    exact ⟨List.sorted_singleton k, by simp [mapInsert]⟩
  | cons q rest ih =>
    match q with
    | (q, vs) =>
      rcases List.sorted_cons.mp h.1 with ⟨hqall, hrest⟩
      simp only [mapInsert]
      by_cases h1 : strLtB k q = true
      · rw [if_pos h1]
        constructor
        · refine List.sorted_cons.mpr ⟨?_, h.1⟩
          intro b hb
          simp only [List.map_cons, List.mem_cons] at hb
          rcases hb with rfl | hb
          · exact strLtB_iff.mp h1
          · exact lt_trans (strLtB_iff.mp h1) (hqall b hb)
        · intro p hp
          rcases List.mem_cons.mp hp with rfl | hp
          · simp
          · exact h.2 p hp
      · by_cases h2 : k = q
        · subst h2
          rw [if_neg h1, if_pos rfl]
          constructor
          · exact h.1
          · intro p hp
            rcases List.mem_cons.mp hp with rfl | hp
            · simp
            · exact h.2 p (List.mem_cons_of_mem _ hp)
        · rw [if_neg h1, if_neg h2]
          have hwrest := ih (WFmap_of_cons h)
          constructor
          · refine List.sorted_cons.mpr ⟨?_, hwrest.1⟩
            intro b hb
            rcases mem_keys_mapInsert.mp hb with rfl | hb
            · exact lt_of_strLtB_false h1 h2
            · exact hqall b hb
          · intro p hp
            rcases List.mem_cons.mp hp with rfl | hp
            · exact h.2 _ (List.mem_cons_self _ _)
            · exact hwrest.2 p hp

theorem mapLookup_mapInsert {k v a : String} {m : List (String × List String)}
    (h : WFmap m) :
    mapLookup a (mapInsert k v m) =
      if a = k then mapLookup a m ++ [v] else mapLookup a m := by
  induction m with
  | nil =>
    simp only [mapInsert, mapLookup]
    by_cases hak : a = k <;> simp [hak]
  | cons q rest ih =>
    match q with
    | (q, vs) =>
      rcases List.sorted_cons.mp h.1 with ⟨hqall, _⟩
      simp only [mapInsert]
      by_cases h1 : strLtB k q = true
      · rw [if_pos h1]
        by_cases hak : a = k
        · subst hak
          have halt : a < q := strLtB_iff.mp h1
          have hneq : a ≠ q := ne_of_lt halt
          have hrest : a ∉ rest.map Prod.fst :=
            fun hmem => absurd (hqall a hmem) (lt_asymm halt)
          simp [mapLookup, hneq, mapLookup_eq_nil hrest]
        · simp [mapLookup, hak]
      · by_cases h2 : k = q
        · subst h2
          rw [if_neg h1, if_pos rfl]
          by_cases hak : a = k <;> simp [mapLookup, hak]
        · rw [if_neg h1, if_neg h2]
          have hqk : ¬ q = k := fun hh => h2 hh.symm
          by_cases haq : a = q
          · simp [mapLookup, haq, hqk]
          · simp only [mapLookup, if_neg haq]
            exact ih (WFmap_of_cons h)

theorem mapLookup_mem_keys {a : String} {m : List (String × List String)}
    (h : mapLookup a m ≠ []) : a ∈ m.map Prod.fst := by
  by_contra hn
  exact h (mapLookup_eq_nil hn)

theorem mem_wfmap_iff {a : String} {bs : List String} {m : List (String × List String)}
    (h : WFmap m) : (a, bs) ∈ m ↔ mapLookup a m = bs ∧ bs ≠ [] := by
  induction m with
  | nil => simp [mapLookup]
  | cons q rest ih =>
    match q with
    | (q, vs) =>
      rcases List.sorted_cons.mp h.1 with ⟨hqall, _⟩
      constructor
      · intro hmem
        rcases List.mem_cons.mp hmem with heq | hmem
        · rw [Prod.mk.injEq] at heq
          rcases heq with ⟨rfl, rfl⟩
          exact ⟨by simp [mapLookup], h.2 _ (List.mem_cons_self _ _)⟩
        · rcases (ih (WFmap_of_cons h)).mp hmem with ⟨hl, hne⟩
          have hkeys : a ∈ rest.map Prod.fst := mapLookup_mem_keys (hl ▸ hne)
          have haq : a ≠ q := fun hh => absurd (hqall a hkeys) (hh ▸ lt_irrefl q)
          exact ⟨by simp [mapLookup, haq, hl], hne⟩
      · intro ⟨hl, hne⟩
        by_cases haq : a = q
        · subst haq
          simp only [mapLookup, if_pos rfl] at hl
          subst hl
          exact List.mem_cons_self _ _
        · simp only [mapLookup, if_neg haq] at hl
          exact List.mem_cons_of_mem _ ((ih (WFmap_of_cons h)).mpr ⟨hl, hne⟩)

theorem mem_ancInsert {x p : String × String} {s : List (String × String)} :
    x ∈ ancInsert p s ↔ x = p ∨ x ∈ s := by
  induction s with
  | nil => simp [ancInsert]
  | cons q rest ih =>
    simp only [ancInsert]
    by_cases h1 : (strLtB p.1 q.1 || (p.1 = q.1 && strLtB p.2 q.2)) = true
    · rw [if_pos h1]
      simp only [List.mem_cons]
    · by_cases h2 : p = q
      · subst h2
        rw [if_neg h1, if_pos rfl]
        simp only [List.mem_cons]
        tauto
      · rw [if_neg h1, if_neg h2]
        simp only [List.mem_cons, ih]
        tauto

/-- The ancestor conflict one pair contributes, if any: the two parents when
both exist and differ. -/
def conflictOf (p : String × String) : Option (String × String) :=
  match optZip (get_ancestor p.1) (get_ancestor p.2) with
  | some (bStem, aStem) => if bStem ≠ aStem then some (bStem, aStem) else none
  | none => none

theorem validateStep_reverseMap (acc : Validation) (p : String × String) :
    (validateStep acc p).reverseMap = mapInsert p.2 p.1 acc.reverseMap := by
  rw [validateStep]
  cases optZip (get_ancestor p.1) (get_ancestor p.2) with
  | none => rfl
  | some z =>
    match z with
    | (bStem, aStem) =>
      by_cases hne : bStem ≠ aStem <;> simp [hne]

theorem validateStep_renamedAncestors (acc : Validation) (p : String × String) :
    (validateStep acc p).renamedAncestors =
      match conflictOf p with
      | some c => ancInsert c acc.renamedAncestors
      | none => acc.renamedAncestors := by
  rw [validateStep, conflictOf]
  cases optZip (get_ancestor p.1) (get_ancestor p.2) with
  | none => rfl
  | some z =>
    match z with
    | (bStem, aStem) =>
      by_cases hne : bStem ≠ aStem <;> simp [hne]

theorem validateStep_failure (acc : Validation) (p : String × String) :
    (validateStep acc p).failure =
      (acc.failure ||
        decide (1 < (mapLookup p.2 (mapInsert p.2 p.1 acc.reverseMap)).length) ||
        (conflictOf p).isSome) := by
  rw [validateStep, conflictOf]
  cases optZip (get_ancestor p.1) (get_ancestor p.2) with
  | none => simp
  | some z =>
    match z with
    | (bStem, aStem) =>
      by_cases hne : bStem ≠ aStem <;> simp [hne]

theorem validate_concat (qs : List (String × String)) (p : String × String) :
    validate (qs ++ [p]) = validateStep (validate qs) p := by
  rw [validate, validate, List.foldl_append]
  rfl

theorem validate_wf (pairs : List (String × String)) : WFmap (validate pairs).reverseMap := by
  induction pairs using List.reverseRecOn with
  | nil => exact WFmap_nil
  | append_singleton qs p ih =>
    rw [validate_concat, validateStep_reverseMap]
    exact mapInsert_wf ih

theorem bucketOf_append (qs : List (String × String)) (p : String × String) (a : String) :
    bucketOf (qs ++ [p]) a = bucketOf qs a ++ (if p.2 = a then [p.1] else []) := by
  rw [bucketOf, List.filterMap_append, bucketOf]
  by_cases h : p.2 = a <;> simp [h]

theorem mapLookup_validate (pairs : List (String × String)) (a : String) :
    mapLookup a (validate pairs).reverseMap = bucketOf pairs a := by
  induction pairs using List.reverseRecOn with
  | nil => rfl
  | append_singleton qs p ih =>
    rw [validate_concat, validateStep_reverseMap, mapLookup_mapInsert (validate_wf qs),
      bucketOf_append]
    by_cases hpa : a = p.2
    · subst hpa
      rw [if_pos rfl, if_pos rfl, ih]
    · rw [if_neg hpa, if_neg (fun hh => hpa hh.symm), ih]
      simp

theorem mem_validate_anc (pairs : List (String × String)) (x : String × String) :
    x ∈ (validate pairs).renamedAncestors ↔ ∃ p ∈ pairs, conflictOf p = some x := by
  induction pairs using List.reverseRecOn with
  | nil => simp [validate]
  | append_singleton qs p ih =>
    rw [validate_concat, validateStep_renamedAncestors]
    cases hc : conflictOf p with
    | none =>
      simp only [ih, List.mem_append, List.mem_singleton]
      constructor
      · intro ⟨q, hq, hcq⟩
        exact ⟨q, Or.inl hq, hcq⟩
      · intro ⟨q, hq, hcq⟩
        rcases hq with hq | rfl
        · exact ⟨q, hq, hcq⟩
        · rw [hc] at hcq
          cases hcq
    | some c =>
      simp only [mem_ancInsert, ih, List.mem_append, List.mem_singleton]
      constructor
      · intro hx
        rcases hx with rfl | ⟨q, hq, hcq⟩
        · exact ⟨p, Or.inr rfl, hc⟩
        · exact ⟨q, Or.inl hq, hcq⟩
      · intro ⟨q, hq, hcq⟩
        rcases hq with hq | rfl
        · exact Or.inr ⟨q, hq, hcq⟩
        · rw [hc] at hcq
          cases hcq
          exact Or.inl rfl

theorem validate_failure_iff (pairs : List (String × String)) :
    (validate pairs).failure = true ↔
      (∃ a, 1 < (bucketOf pairs a).length) ∨ ∃ p ∈ pairs, (conflictOf p).isSome = true := by
  induction pairs using List.reverseRecOn with
  | nil => simp [validate, bucketOf]
  | append_singleton qs p ih =>
    rw [validate_concat, validateStep_failure, Bool.or_eq_true, Bool.or_eq_true, ih,
      mapLookup_mapInsert (validate_wf qs), if_pos rfl, mapLookup_validate,
      decide_eq_true_iff]
    constructor
    · intro hin
      rcases hin with ((⟨a, ha⟩ | ⟨q, hq, hcq⟩) | hmid) | hp
      · refine Or.inl ⟨a, ?_⟩
        rw [bucketOf_append, List.length_append]
        omega
      · exact Or.inr ⟨q, List.mem_append_left _ hq, hcq⟩
      · refine Or.inl ⟨p.2, ?_⟩
        rw [bucketOf_append, if_pos rfl]
        exact hmid
      · exact Or.inr ⟨p, List.mem_append_right _ (by simp), hp⟩
    · intro hin
      rcases hin with ⟨a, ha⟩ | ⟨q, hq, hcq⟩
      · rw [bucketOf_append] at ha
        by_cases hpa : p.2 = a
        · subst hpa
          rw [if_pos rfl] at ha
          exact Or.inl (Or.inr ha)
        · rw [if_neg hpa] at ha
          simp only [List.append_nil] at ha
          exact Or.inl (Or.inl (Or.inl ⟨a, ha⟩))
      · rcases List.mem_append.mp hq with hq | hq
        · exact Or.inl (Or.inl (Or.inr ⟨q, hq, hcq⟩))
        · rw [List.mem_singleton.mp hq] at hcq
          exact Or.inr hcq

theorem bucketOf_length_count (pairs : List (String × String)) (a : String) :
    (bucketOf pairs a).length = (pairs.map Prod.snd).count a := by
  induction pairs with
  | nil => rfl
  | cons p rest ih =>
    rw [bucketOf, List.filterMap_cons, List.map_cons, List.count_cons]
    rw [show (bucketOf rest a) =
      List.filterMap (fun q => if q.2 = a then some q.1 else none) rest from rfl] at ih
    by_cases h : p.2 = a
    · rw [if_pos h]
      simp [h, ih]
    · rw [if_neg h]
      simp [h, ih]

/-! ### Executor -/

theorem nonId_cons_self (b : String) (rest : List (String × String)) :
    nonId ((b, b) :: rest) = nonId rest := by
  simp [nonId, List.filter_cons]

theorem nonId_cons_ne {b a : String} (h : b ≠ a) (rest : List (String × String)) :
    nonId ((b, a) :: rest) = (b, a) :: nonId rest := by
  simp [nonId, List.filter_cons, h]

theorem exec_cons_identity (rn : String → String → Except ε Unit) (dry : Bool)
    (b : String) (rest rep ren : List (String × String)) :
    exec rn dry ((b, b) :: rest) rep ren = exec rn dry rest rep ren := by
  simp [exec]

theorem exec_dry (rn : String → String → Except ε Unit)
    (pairs rep ren : List (String × String)) :
    exec rn true pairs rep ren = .success (rep ++ nonId pairs) ren := by
  induction pairs generalizing rep with
  | nil => simp [exec, nonId]
  | cons p rest ih =>
    obtain ⟨b, a⟩ := p
    by_cases hba : b = a
    · subst hba
      rw [exec_cons_identity, ih, nonId_cons_self]
    · rw [show exec rn true ((b, a) :: rest) rep ren
          = exec rn true rest (rep ++ [(b, a)]) ren from by simp [exec, hba], ih,
        nonId_cons_ne hba]
      simp

theorem exec_ok (rn : String → String → Except ε Unit)
    (pairs rep ren : List (String × String))
    (hok : ∀ p ∈ pairs, p.1 ≠ p.2 → rn p.1 p.2 = .ok ()) :
    exec rn false pairs rep ren = .success (rep ++ nonId pairs) (ren ++ nonId pairs) := by
  induction pairs generalizing rep ren with
  | nil => simp [exec, nonId]
  | cons p rest ih =>
    obtain ⟨b, a⟩ := p
    have hok' : ∀ p ∈ rest, p.1 ≠ p.2 → rn p.1 p.2 = .ok () :=
      fun p hp => hok p (List.mem_cons_of_mem _ hp)
    by_cases hba : b = a
    · subst hba
      rw [exec_cons_identity, ih _ _ hok', nonId_cons_self]
    · have hrn : rn b a = .ok () := hok (b, a) (List.mem_cons_self _ _) hba
      rw [show exec rn false ((b, a) :: rest) rep ren
          = exec rn false rest (rep ++ [(b, a)]) (ren ++ [(b, a)]) from by
            simp [exec, hba, hrn],
        ih _ _ hok', nonId_cons_ne hba]
      simp

theorem exec_error (rn : String → String → Except ε Unit)
    (pre post rep ren : List (String × String)) (b a : String) (e : ε)
    (hpre : ∀ p ∈ pre, p.1 ≠ p.2 → rn p.1 p.2 = .ok ())
    (hba : b ≠ a) (herr : rn b a = .error e) :
    exec rn false (pre ++ (b, a) :: post) rep ren =
      .ioError e (rep ++ nonId pre ++ [(b, a)]) (ren ++ nonId pre) := by
  induction pre generalizing rep ren with
  | nil => simp [exec, hba, herr, nonId]
  | cons q rest ih =>
    obtain ⟨qb, qa⟩ := q
    have hpre' : ∀ p ∈ rest, p.1 ≠ p.2 → rn p.1 p.2 = .ok () :=
      fun p hp => hpre p (List.mem_cons_of_mem _ hp)
    by_cases hq : qb = qa
    · subst hq
      rw [List.cons_append, exec_cons_identity, ih _ _ hpre', nonId_cons_self]
    · have hrn : rn qb qa = .ok () := hpre (qb, qa) (List.mem_cons_self _ _) hq
      rw [List.cons_append,
        show exec rn false ((qb, qa) :: (rest ++ (b, a) :: post)) rep ren
          = exec rn false (rest ++ (b, a) :: post) (rep ++ [(qb, qa)]) (ren ++ [(qb, qa)])
          from by simp [exec, hq, hrn],
        ih _ _ hpre', nonId_cons_ne hq]
      simp

theorem exec_false_success {rn : String → String → Except ε Unit}
    {pairs rep ren rep' ren' : List (String × String)}
    (h : exec rn false pairs rep ren = .success rep' ren') :
    rep' = rep ++ nonId pairs ∧ ren' = ren ++ nonId pairs := by
  induction pairs generalizing rep ren with
  | nil =>
    simp only [exec, Outcome.success.injEq] at h
    obtain ⟨rfl, rfl⟩ := h
    simp [nonId]
  | cons p rest ih =>
    obtain ⟨b, a⟩ := p
    by_cases hba : b = a
    · subst hba
      rw [exec_cons_identity] at h
      rw [nonId_cons_self]
      exact ih h
    · cases hrn : rn b a with
      | ok u =>
        cases u
        rw [show exec rn false ((b, a) :: rest) rep ren
            = exec rn false rest (rep ++ [(b, a)]) (ren ++ [(b, a)]) from by
              simp [exec, hba, hrn]] at h
        rcases ih h with ⟨rfl, rfl⟩
        rw [nonId_cons_ne hba]
        simp
      | error e =>
        rw [show exec rn false ((b, a) :: rest) rep ren
            = .ioError e (rep ++ [(b, a)]) ren from by simp [exec, hba, hrn]] at h
        cases h

theorem exec_all_identity (rn : String → String → Except ε Unit) (dry : Bool)
    (pairs rep ren : List (String × String)) (h : ∀ p ∈ pairs, p.1 = p.2) :
    exec rn dry pairs rep ren = .success rep ren := by
  induction pairs with
  | nil => simp [exec]
  | cons p rest ih =>
    obtain ⟨b, a⟩ := p
    have hba : b = a := h (b, a) (List.mem_cons_self _ _)
    subst hba
    rw [exec_cons_identity]
    exact ih (fun p hp => h p (List.mem_cons_of_mem _ hp))

theorem zip_reverse {α β : Type} (l₁ : List α) (l₂ : List β) (h : l₁.length = l₂.length) :
    l₁.reverse.zip l₂.reverse = (l₁.zip l₂).reverse := by
  induction l₁ generalizing l₂ with
  | nil =>
    cases l₂ with
    | nil => rfl
    | cons y ys => simp at h
  | cons x xs ih =>
    cases l₂ with
    | nil => simp at h
    | cons y ys =>
      have h' : xs.length = ys.length := by
        simpa using h
      simp only [List.reverse_cons, List.zip_cons_cons]
      rw [List.zip_append (by simp [h']), ih _ h']
      simp

theorem zip_self_fst_eq_snd (l : List String) : ∀ p ∈ l.zip l, p.1 = p.2 := by
  induction l with
  | nil => simp
  | cons x xs ih =>
    intro p hp
    rcases List.mem_cons.mp hp with rfl | hp
    · rfl
    · exact ih p hp

/-! ### The reconciliation pipeline, case by case -/

theorem main_after_edit_mismatch (rn : String → String → Except ε Unit) (dry : Bool)
    (before after : List String) (h : before.length ≠ after.length) :
    main_after_edit rn dry before after = .countMismatch before.length after.length := by
  rw [main_after_edit, if_pos h]

theorem main_after_edit_failed (rn : String → String → Except ε Unit) (dry : Bool)
    (before after : List String) (h : before.length = after.length)
    (hf : (validate (before.zip after)).failure = true) :
    main_after_edit rn dry before after =
      .validationFailed
        ((validate (before.zip after)).reverseMap.filter fun kv => 1 < kv.2.length)
        (validate (before.zip after)).renamedAncestors := by
  rw [main_after_edit, if_neg (by simp [h])]
  simp [hf]

theorem main_after_edit_ok (rn : String → String → Except ε Unit) (dry : Bool)
    (before after : List String) (h : before.length = after.length)
    (hf : (validate (before.zip after)).failure = false) :
    main_after_edit rn dry before after = exec rn dry (execOrder before after) [] [] := by
  rw [main_after_edit, if_neg (by simp [h])]
  simp [hf]

theorem conflictOf_self {p : String × String} (h : p.1 = p.2) : conflictOf p = none := by
  obtain ⟨b, a⟩ := p
  simp only at h
  subst h
  cases hg : get_ancestor b <;> simp [conflictOf, optZip, hg]

theorem dup_exists_iff {before after : List String} (h : before.length = after.length) :
    (∃ a, 1 < (bucketOf (before.zip after) a).length) ↔ ¬ after.Nodup := by
  have hsnd : (before.zip after).map Prod.snd = after :=
    List.map_snd_zip _ _ (le_of_eq h.symm)
  constructor
  · intro ⟨a, ha⟩
    rw [bucketOf_length_count, hsnd] at ha
    rw [List.nodup_iff_count_le_one]
    push_neg
    exact ⟨a, ha⟩
  · intro hnd
    rw [List.nodup_iff_count_le_one] at hnd
    push_neg at hnd
    obtain ⟨a, ha⟩ := hnd
    refine ⟨a, ?_⟩
    rw [bucketOf_length_count, hsnd]
    exact ha

theorem exec_result (rn : String → String → Except ε Unit)
    (pairs rep ren : List (String × String)) :
    (∃ rep' ren', exec rn false pairs rep ren = .success rep' ren') ∨
    (∃ e rep' ren', exec rn false pairs rep ren = .ioError e rep' ren') := by
  induction pairs generalizing rep ren with
  | nil => exact Or.inl ⟨rep, ren, rfl⟩
  | cons p rest ih =>
    obtain ⟨b, a⟩ := p
    by_cases hba : b = a
    · subst hba
      rw [exec_cons_identity]
      exact ih rep ren
    · cases hrn : rn b a with
      | ok u =>
        cases u
        rw [show exec rn false ((b, a) :: rest) rep ren
            = exec rn false rest (rep ++ [(b, a)]) (ren ++ [(b, a)]) from by
              simp [exec, hba, hrn]]
        exact ih _ _
      | error e =>
        rw [show exec rn false ((b, a) :: rest) rep ren
            = .ioError e (rep ++ [(b, a)]) ren from by simp [exec, hba, hrn]]
        exact Or.inr ⟨e, _, _, rfl⟩

/-! ### Claim theorems -/

/-- C2: when PathList and EditedList lengths differ, the run fails with
CountMismatch reporting both counts; the outcome carries no duplicate-target
report, no ancestor report, no reported line and no rename — the length check
short-circuits everything that follows. -/
theorem C2_count_mismatch (rn : String → String → Except ε Unit) (dry : Bool)
    (before after : List String) (h : before.length ≠ after.length) :
    main_after_edit rn dry before after = .countMismatch before.length after.length ∧
      renamedOf (main_after_edit rn dry before after) = [] ∧
      reportedOf (main_after_edit rn dry before after) = [] := by
  have he := main_after_edit_mismatch rn dry before after h
  exact ⟨he, by rw [he]; rfl, by rw [he]; rfl⟩

/-- Witness for C2 at before = [a, b, c], after = [a, b]. -/
theorem C2_count_mismatch_witness :
    main_after_edit (ε := Unit) rnOk false ["a", "b", "c"] ["a", "b"] =
        .countMismatch 3 2 ∧
      renamedOf (main_after_edit (ε := Unit) rnOk false ["a", "b", "c"] ["a", "b"]) = [] := by
  have h := C2_count_mismatch (ε := Unit) rnOk false ["a", "b", "c"] ["a", "b"] (by decide)
  exact ⟨h.1, h.2.1⟩

/-- C3: under equal lengths, validation records a duplicate-target conflict
iff some after value is claimed by more than one position; the reported
buckets are exactly the after values claimed more than once, each with every
contending before in pairing order; and when such a conflict exists the
outcome is the validation failure and no rename happens. -/
theorem C3_duplicate_targets (rn : String → String → Except ε Unit) (dry : Bool)
    (before after : List String) (h : before.length = after.length) :
    ((∃ a bs, (a, bs) ∈ (validate (before.zip after)).reverseMap.filter
        fun kv => 1 < kv.2.length) ↔ ¬ after.Nodup) ∧
    (∀ a bs, ((a, bs) ∈ (validate (before.zip after)).reverseMap.filter
        fun kv => 1 < kv.2.length) ↔
        bs = bucketOf (before.zip after) a ∧ 1 < bs.length) ∧
    (¬ after.Nodup →
      main_after_edit rn dry before after =
        .validationFailed
          ((validate (before.zip after)).reverseMap.filter fun kv => 1 < kv.2.length)
          (validate (before.zip after)).renamedAncestors ∧
      renamedOf (main_after_edit rn dry before after) = []) := by
  have hmem : ∀ a bs, ((a, bs) ∈ (validate (before.zip after)).reverseMap.filter
      fun kv => 1 < kv.2.length) ↔ bs = bucketOf (before.zip after) a ∧ 1 < bs.length := by
    intro a bs
    rw [List.mem_filter, mem_wfmap_iff (validate_wf _), mapLookup_validate]
    constructor
    · intro ⟨⟨hl, _⟩, hlen⟩
      exact ⟨hl.symm, by simpa using hlen⟩
    · intro ⟨hl, hlen⟩
      refine ⟨⟨hl.symm, ?_⟩, by simpa using hlen⟩
      intro hnil
      rw [hnil] at hlen
      simp at hlen
  have hdup : (∃ a bs, (a, bs) ∈ (validate (before.zip after)).reverseMap.filter
      fun kv => 1 < kv.2.length) ↔ ¬ after.Nodup := by
    rw [← dup_exists_iff h]
    constructor
    · intro ⟨a, bs, hab⟩
      rcases (hmem a bs).mp hab with ⟨rfl, hlen⟩
      exact ⟨a, hlen⟩
    · intro ⟨a, ha⟩
      exact ⟨a, bucketOf (before.zip after) a, (hmem a _).mpr ⟨rfl, ha⟩⟩
  refine ⟨hdup, hmem, ?_⟩
  intro hnd
  have hfail : (validate (before.zip after)).failure = true := by
    rw [validate_failure_iff]
    exact Or.inl ((dup_exists_iff h).mpr hnd)
  have he := main_after_edit_failed rn dry before after h hfail
  exact ⟨he, by rw [he]; rfl⟩

/-- Witness for C3 at before = [a.txt, b.txt], after = [x.txt, x.txt]. -/
theorem C3_duplicate_targets_witness :
    main_after_edit (ε := Unit) rnOk false ["a.txt", "b.txt"] ["x.txt", "x.txt"] =
        .validationFailed [("x.txt", ["a.txt", "b.txt"])] [] ∧
      renamedOf (main_after_edit (ε := Unit) rnOk false ["a.txt", "b.txt"]
        ["x.txt", "x.txt"]) = [] := by
  have h := (C3_duplicate_targets (ε := Unit) rnOk false ["a.txt", "b.txt"]
    ["x.txt", "x.txt"] (by decide)).2.2 (by decide)
  refine ⟨h.1.trans (by decide), h.2⟩

/-- C4: the parent of a path is computed by stripping one trailing separator
and dropping the final component (none when no separator remains); when both
parents of a pair exist and differ, the conflict is recorded and the plan is
rejected with no rename. -/
theorem C4_ancestor_conflict (rn : String → String → Except ε Unit) (dry : Bool) :
    (∀ p : String, get_ancestor p = none ↔ '/' ∉ stripOneTrailingSlash p.data) ∧
    (∀ (p : String) (u v : List Char), stripOneTrailingSlash p.data = u ++ '/' :: v →
      '/' ∉ v → get_ancestor p = some (String.mk u)) ∧
    (∀ (before after : List String) (b a pb pa : String),
      before.length = after.length → (b, a) ∈ before.zip after →
      get_ancestor b = some pb → get_ancestor a = some pa → pb ≠ pa →
      (∃ ds ancs, main_after_edit rn dry before after = .validationFailed ds ancs ∧
        (pb, pa) ∈ ancs) ∧
      renamedOf (main_after_edit rn dry before after) = []) := by
  refine ⟨fun _ => get_ancestor_eq_none_iff, fun _ _ _ h hv => get_ancestor_eq_some h hv, ?_⟩
  intro before after b a pb pa h hmem hgb hga hne
  have hconf : conflictOf (b, a) = some (pb, pa) := by
    simp [conflictOf, optZip, hgb, hga, hne]
  have hfail : (validate (before.zip after)).failure = true := by
    rw [validate_failure_iff]
    exact Or.inr ⟨(b, a), hmem, by rw [hconf]; rfl⟩
  have he := main_after_edit_failed rn dry before after h hfail
  refine ⟨⟨_, _, he, ?_⟩, by rw [he]; rfl⟩
  rw [mem_validate_anc]
  exact ⟨(b, a), hmem, hconf⟩

/-- Witness for C4: parents of concrete paths, and the inline ancestor rename
foo/bar.txt to qux/bar.txt is rejected with (foo, qux) recorded. -/
theorem C4_ancestor_conflict_witness :
    get_ancestor "bar.txt" = none ∧
    get_ancestor "foo/bar.txt" = some "foo" ∧
    (∃ ds ancs,
      main_after_edit (ε := Unit) rnOk false ["foo/bar.txt", "foo/baz.txt"]
          ["qux/bar.txt", "foo/baz.txt"] = .validationFailed ds ancs ∧
        ("foo", "qux") ∈ ancs) := by
  have h := C4_ancestor_conflict (ε := Unit) rnOk false
  refine ⟨(h.1 "bar.txt").mpr (by decide), ?_, ?_⟩
  · exact h.2.1 "foo/bar.txt" "foo".data "bar.txt".data (by decide) (by decide)
  · exact (h.2.2 ["foo/bar.txt", "foo/baz.txt"] ["qux/bar.txt", "foo/baz.txt"]
      "foo/bar.txt" "qux/bar.txt" "foo" "qux" (by decide) (by decide)
      (by decide) (by decide) (by decide)).1

/-- C5: the executor visits exactly the reverse of the positional pairing, so
with the sorted Collector output on the before side the visit order is
strictly descending in the before value, the pairing being preserved. -/
theorem C5_descending_order (before after : List String)
    (h : before.length = after.length) (hs : before.Sorted (· < ·)) :
    execOrder before after = (before.zip after).reverse ∧
    ((execOrder before after).map Prod.fst).Sorted (fun a b => b < a) := by
  have h1 : execOrder before after = (before.zip after).reverse :=
    zip_reverse before after h
  refine ⟨h1, ?_⟩
  rw [h1, List.map_reverse, List.map_fst_zip _ _ (le_of_eq h)]
  exact List.pairwise_reverse.mpr hs

/-- Witness for C5 at before = [a, b], after = [b, a]. -/
theorem C5_descending_order_witness :
    execOrder ["a", "b"] ["b", "a"] = (["a", "b"].zip ["b", "a"]).reverse ∧
    ((execOrder ["a", "b"] ["b", "a"]).map Prod.fst).Sorted (fun a b => b < a) := by
  have hs : List.Sorted (· < ·) ["a", "b"] := by
    refine List.sorted_cons.mpr ⟨?_, List.sorted_singleton _⟩
    intro b hb
    rw [List.mem_singleton.mp hb]
    exact strLtB_iff.mp (by decide)
  exact C5_descending_order ["a", "b"] ["b", "a"] (by decide) hs

/-- C6: identity pairs are skipped silently — they add no report line and no
rename call — and when the edited listing equals the Collector output byte for
byte, the whole run reports nothing, renames nothing and succeeds. -/
theorem C6_identity_noop (rn : String → String → Except ε Unit) (dry : Bool)
    (files : List String) :
    (∀ (b : String) (rest rep ren : List (String × String)),
      exec rn dry ((b, b) :: rest) rep ren = exec rn dry rest rep ren) ∧
    main_after_edit rn dry (collect files) (collect files) = .success [] [] := by
  refine ⟨fun b rest rep ren => exec_cons_identity rn dry b rest rep ren, ?_⟩
  have hnd : (collect files).Nodup := (collect_sorted files).nodup
  have hfail : (validate ((collect files).zip (collect files))).failure = false := by
    cases hval : (validate ((collect files).zip (collect files))).failure with
    | false => rfl
    | true =>
      exfalso
      rcases (validate_failure_iff _).mp hval with ⟨a, ha⟩ | ⟨p, hp, hc⟩
      · rw [bucketOf_length_count, List.map_snd_zip _ _ le_rfl] at ha
        rw [List.nodup_iff_count_le_one] at hnd
        exact absurd (hnd a) (by omega)
      · rw [conflictOf_self (zip_self_fst_eq_snd _ p hp)] at hc
        cases hc
  rw [main_after_edit_ok rn dry _ _ rfl hfail]
  exact exec_all_identity rn dry _ [] []
    (fun p hp => zip_self_fst_eq_snd _ p (by
      rw [execOrder] at hp
      exact (zip_reverse _ _ rfl ▸ hp : p ∈ ((collect files).zip (collect files)).reverse)
        |> List.mem_reverse.mp))

/-- C7: a dry run yields the same validation outcome and the same reported
lines as a normal run that hits no rename failure, and issues no rename,
whatever the oracle answers. -/
theorem C7_dry_run (rn rnB : String → String → Except ε Unit)
    (before after : List String)
    (h : ∀ (e : ε) (rep ren : List (String × String)),
      main_after_edit rnB false before after ≠ .ioError e rep ren) :
    main_after_edit rn true before after =
      stripRenames (main_after_edit rnB false before after) ∧
    renamedOf (main_after_edit rn true before after) = [] := by
  by_cases hlen : before.length = after.length
  · cases hval : (validate (before.zip after)).failure with
    | true =>
      rw [main_after_edit_failed rn true before after hlen hval,
        main_after_edit_failed rnB false before after hlen hval]
      exact ⟨rfl, rfl⟩
    | false =>
      rw [main_after_edit_ok rn true before after hlen hval, exec_dry,
        main_after_edit_ok rnB false before after hlen hval]
      rcases exec_result rnB (execOrder before after) [] [] with
        ⟨rep', ren', hs⟩ | ⟨e, rep', ren', hio⟩
      · rcases exec_false_success hs with ⟨rfl, rfl⟩
        rw [hs]
        exact ⟨by simp [stripRenames], rfl⟩
      · exact absurd ((main_after_edit_ok rnB false before after hlen hval).trans hio)
          (h e _ _)
  · rw [main_after_edit_mismatch rn true before after hlen,
      main_after_edit_mismatch rnB false before after hlen]
    exact ⟨rfl, rfl⟩

/-- Witness for C7 at before = [a], after = [b] with the all-ok oracle. -/
theorem C7_dry_run_witness :
    main_after_edit (ε := Unit) rnOk true ["a"] ["b"] =
      stripRenames (main_after_edit (ε := Unit) rnOk false ["a"] ["b"]) ∧
    renamedOf (main_after_edit (ε := Unit) rnOk true ["a"] ["b"]) = [] := by
  have hne : ∀ (e : Unit) (rep ren : List (String × String)),
      main_after_edit (ε := Unit) rnOk false ["a"] ["b"] ≠ .ioError e rep ren := by
    intro e rep ren hcon
    have hv : main_after_edit (ε := Unit) rnOk false ["a"] ["b"] =
        .success [("a", "b")] [("a", "b")] := by decide
    rw [hv] at hcon
    exact Outcome.noConfusion hcon
  exact C7_dry_run rnOk rnOk ["a"] ["b"] hne

/-- C8: the executor surfaces the first failing rename as the outcome, the
pairs after it are not attempted (the result does not depend on them), and
the renames applied before it stay applied. -/
theorem C8_failure_aborts (rn : String → String → Except ε Unit)
    (pre post : List (String × String)) (b a : String) (e : ε)
    (hpre : ∀ p ∈ pre, p.1 ≠ p.2 → rn p.1 p.2 = .ok ())
    (hba : b ≠ a) (herr : rn b a = .error e) :
    exec rn false (pre ++ (b, a) :: post) [] [] =
      .ioError e (nonId pre ++ [(b, a)]) (nonId pre) := by
  simpa using exec_error rn pre post [] [] b a e hpre hba herr

/-- Witness for C8: one successful rename, then (b, a) fails; the trailing
pair is never attempted and the first rename is kept. -/
theorem C8_failure_aborts_witness :
    exec (fun x _ => if x = "b" then (.error "boom" : Except String Unit) else .ok ())
        false [("c", "c2"), ("b", "a"), ("z", "z2")] [] [] =
      .ioError "boom" [("c", "c2"), ("b", "a")] [("c", "c2")] := by
  have h := C8_failure_aborts
    (fun x _ => if x = "b" then (.error "boom" : Except String Unit) else .ok ())
    [("c", "c2")] [("z", "z2")] "b" "a" "boom"
    (by
      intro p hp hne
      rw [List.mem_singleton.mp hp]
      rfl)
    (by decide) rfl
  exact h.trans (by decide)

/-- C9: a pure swap — before = [a, b] edited to [b, a] — passes validation
(no duplicate target, no ancestor conflict) and the plan is accepted and
applied sequentially. -/
theorem C9_pure_swap :
    (validate (["a", "b"].zip ["b", "a"])).failure = false ∧
    main_after_edit (ε := Unit) rnOk false ["a", "b"] ["b", "a"] =
      .success [("b", "a"), ("a", "b")] [("b", "a"), ("a", "b")] := by
  decide

/-- C10: the ancestor check is skipped whenever either side of a pair lacks a
parent, not only when both do: such a pair records no conflict, and editing
foo/bar.txt to bar.txt (or back) is accepted outright. -/
theorem C10_missing_parent_exempt :
    (∀ (acc : Validation) (b a : String),
      get_ancestor b = none ∨ get_ancestor a = none →
      (validateStep acc (b, a)).renamedAncestors = acc.renamedAncestors) ∧
    main_after_edit (ε := Unit) rnOk false ["foo/bar.txt"] ["bar.txt"] =
      .success [("foo/bar.txt", "bar.txt")] [("foo/bar.txt", "bar.txt")] ∧
    main_after_edit (ε := Unit) rnOk false ["bar.txt"] ["foo/bar.txt"] =
      .success [("bar.txt", "foo/bar.txt")] [("bar.txt", "foo/bar.txt")] := by
  refine ⟨?_, by decide, by decide⟩
  intro acc b a h
  rw [validateStep_renamedAncestors]
  have hc : conflictOf (b, a) = none := by
    rcases h with h | h
    · cases hga : get_ancestor a <;> simp [conflictOf, optZip, h, hga]
    · cases hgb : get_ancestor b <;> simp [conflictOf, optZip, h, hgb]
  rw [hc]

/-- Witness for C10: the pair (foo/bar.txt, bar.txt), whose after side has no
parent, records no ancestor conflict. -/
theorem C10_missing_parent_exempt_witness :
    (validateStep ⟨false, [], []⟩ ("foo/bar.txt", "bar.txt")).renamedAncestors = [] :=
  C10_missing_parent_exempt.1 ⟨false, [], []⟩ "foo/bar.txt" "bar.txt" (Or.inr (by decide))

end Evaki
